import Mathlib

/-!
A verification development for the `rednext` record store.

The store keeps named collections of typed records.  Each collection has a
fixed schema (an ordered list of named, typed columns); records carry an id,
one value per schema column, and an optional completion timestamp.  Two
backends implement the same contract: an embedded SQLite backend
(`src/sqlite.rs`) and a remote HTTP backend (`src/http_client.rs`).

This file shallowly embeds the data model (`src/db.rs`), the embedded
backend's operations on an open collection (the `items` table of one
database file), the catalog-level operations over the directory of database
files, and the remote backend's request/response handling.  Timestamps
(`chrono::NaiveDateTime`, second precision) are modelled as natural numbers;
the SQLite engine's behaviour on the generated statements (filtering,
ordering, affected-row counts, `AUTOINCREMENT` id assignment) is modelled
explicitly, with each modelling decision noted next to the definition.
-/

namespace Rednext

/-! ### Data model (`src/db.rs`) -/

/-- `DbFieldType` (db.rs): the four column types. -/
inductive DbFieldType
  | Text
  | Number
  | Boolean
  | DateTime
deriving DecidableEq

/-- `strum::Display` on `DbFieldType`: the textual representation is exactly
the variant name. -/
def DbFieldType.asText : DbFieldType → String
  | .Text => "Text"
  | .Number => "Number"
  | .Boolean => "Boolean"
  | .DateTime => "DateTime"

/-- `strum::EnumString` on `DbFieldType` (used by `impl FromSql for
DbFieldType` in sqlite.rs): parsing matches a variant name exactly and any
other string is a decode failure (`None`). -/
def DbFieldType.ofText (s : String) : Option DbFieldType :=
  if s == "Text" then some .Text
  else if s == "Number" then some .Number
  else if s == "Boolean" then some .Boolean
  else if s == "DateTime" then some .DateTime
  else none

/-- `DbFieldDesc` (db.rs): a named, typed column. -/
structure DbFieldDesc where
  name : String
  field_type : DbFieldType
deriving DecidableEq

/-- `DbSchema` (db.rs): the ordered list of columns of a collection. -/
structure DbSchema where
  fields : List DbFieldDesc
deriving DecidableEq

/-- `DbValue` (db.rs).  `Number` holds an `i32`, modelled as `Int`;
`DateTime` holds a second-precision naive timestamp, modelled as `Nat`. -/
inductive DbValue
  | Text (s : String)
  | Number (n : Int)
  | Boolean (b : Bool)
  | DateTime (t : Nat)
deriving DecidableEq

/-- The tag of a `DbValue`. -/
def DbValue.typeOf : DbValue → DbFieldType
  | .Text _ => .Text
  | .Number _ => .Number
  | .Boolean _ => .Boolean
  | .DateTime _ => .DateTime

/-- `DbField` (db.rs): a named value, passed at insert time. -/
structure DbField where
  name : String
  value : DbValue
deriving DecidableEq

/-- `DbItem` (db.rs): one stored record as returned by the queries. -/
structure DbItem where
  id : Nat
  fields : List DbField
  completed_at : Option Nat
deriving DecidableEq

/-! ### Errors

The Rust code returns `anyhow::Result`; we model failure with a small error
type whose constructors correspond to the failure sites in the source. -/

inductive DbError
  /-- A generated SQL statement fails to prepare (e.g. an empty `WHERE`
  clause produced by `find` when the schema has no text columns). -/
  | badQuery
  /-- `INSERT` names a column that does not exist in the table. -/
  | noSuchColumn (c : String)
  /-- Reading a typed value out of a `NULL` (or absent) column fails
  (`rusqlite` `InvalidColumnType` / `InvalidColumnName`). -/
  | nullColumn (c : String)
  /-- Reading a typed value out of a column holding a value of another type
  fails (`rusqlite` `InvalidColumnType`). -/
  | typeMismatch (c : String)
  /-- `done`: `Expect exact one item, but got {count}` (sqlite.rs). -/
  | updateCount (n : Nat)
  /-- `undone`: `Item with id {id} is not found` (sqlite.rs). -/
  | itemMissing (i : Nat)
  /-- A filesystem operation fails (`remove_file` on a missing file, a
  catalog path that is not a directory, an unopenable database file). -/
  | fsError
  /-- `read_schema` fails: the database file has no readable `schema`
  table (e.g. a file freshly created by `Connection::open`). -/
  | schemaMissing
deriving DecidableEq

/-! ### The embedded backend's table state (`src/sqlite.rs`)

An open collection (`SqliteFile`) is a SQLite `items` table created by
`SqliteDB::create_items_table`:
`id INTEGER PRIMARY KEY AUTOINCREMENT, <one column per schema field>,
done_at TIMESTAMP`.  A row stores one optional value per schema column
(`NULL` when absent) plus the nullable `done_at`.  `AUTOINCREMENT` keeps a
sequence that is at least the largest id ever used, so deleted ids are
never handed out again; `next_id` models that sequence. -/

/-- One row of the `items` table.  `cells` lists the schema columns in
order, each with its stored value (`none` models SQL `NULL`). -/
structure Row where
  id : Nat
  cells : List (String × Option DbValue)
  done_at : Option Nat
deriving DecidableEq

/-- The state of one open collection: its schema (read from the `schema`
table on open, or given at creation) and the `items` table. -/
structure FileState where
  schema : DbSchema
  rows : List Row
  next_id : Nat
deriving DecidableEq

/-- Value of column `c` in row `r` (`NULL` when the column is absent;
well-formed states always carry every schema column). -/
def cellOf (r : Row) (c : String) : Option DbValue :=
  match r.cells.find? (fun p => p.1 == c) with
  | some p => p.2
  | none => none

/-! ### SQLite `LIKE` matching

`find` builds `"<col> LIKE ?1"` with the pattern `%<needle>%`.  SQLite's
`LIKE` (with no `ESCAPE`) treats `%` as "any sequence", `_` as "any single
character", and compares other characters case-insensitively on ASCII. -/

/-- ASCII lower-casing, as SQLite's `LIKE` applies to `A`–`Z` only. -/
def lowerAscii (c : Char) : Char :=
  if 'A' ≤ c ∧ c ≤ 'Z' then Char.ofNat (c.toNat + 32) else c

/-- Try a matcher on every suffix of the string (used for `%`). -/
def likeSuffixes (m : List Char → Bool) : List Char → Bool
  | [] => m []
  | s :: ss => m (s :: ss) || likeSuffixes m ss

/-- `LIKE` pattern matching over character lists, recursing on the
pattern. -/
def likeHere : List Char → List Char → Bool
  | [] => fun ss => ss.isEmpty
  | c :: ps =>
    if c = '%' then likeSuffixes (likeHere ps)
    else fun ss =>
      match ss with
      | [] => false
      | s :: ss' =>
        if c = '_' then likeHere ps ss'
        else lowerAscii c == lowerAscii s && likeHere ps ss'

/-- `s LIKE pat` for strings. -/
def likeMatch (pat s : String) : Bool :=
  likeHere pat.toList s.toList

/-- SQLite coerces a non-text operand of `LIKE` to its textual form.  Only
the `Text` case is reachable under the well-typed states used below (`find`
only targets `Text` columns); the other renderings stand in for SQLite's
text coercion (`DateTime` cells are physically stored as formatted text,
modelled here by the numeral of the timestamp). -/
def DbValue.asSqlText : DbValue → String
  | .Text s => s
  | .Number n => toString n
  | .Boolean b => if b then ("1") else ("0")
  | .DateTime t => toString t

/-! ### Reading rows back (`SqliteFile::to_db_item`) -/

/-- Collect a list of fallible results, stopping at the first error: the
`query_map(...).collect::<rusqlite::Result<Vec<_>>>()` pattern. -/
def mapE {α β : Type} (f : α → Except DbError β) : List α → Except DbError (List β)
  | [] => .ok []
  | x :: xs =>
    match f x with
    | .error e => .error e
    | .ok y =>
      match mapE f xs with
      | .error e => .error e
      | .ok ys => .ok (y :: ys)

/-- `row.get(f.name)` at the field's declared type: fails on `NULL` (or a
missing column) and on a stored value of a different type. -/
def readCell (r : Row) (f : DbFieldDesc) : Except DbError DbField :=
  match cellOf r f.name with
  | none => .error (.nullColumn f.name)
  | some v =>
    if v.typeOf = f.field_type then .ok ⟨f.name, v⟩
    else .error (.typeMismatch f.name)

/-- `SqliteFile::to_db_item`: read the schema columns in schema order, plus
`id` and `done_at`. -/
def to_db_item (schema : DbSchema) (r : Row) : Except DbError DbItem :=
  match mapE (readCell r) schema.fields with
  | .error e => .error e
  | .ok fields => .ok ⟨r.id, fields, r.done_at⟩

/-! ### `SqliteFile::select_items`

`select_items` builds `SELECT id, <cols>, done_at FROM items [WHERE
<filter>] ORDER BY <ord>` (default order `id`).  The three `WHERE` clauses
the source ever passes are modelled as data.  A `find` over a schema with
no text columns passes the empty string as the clause, which makes the
statement fail to prepare (`... WHERE  ORDER BY id` is not valid SQL). -/

inductive RowFilter
  /-- `done_at IS NOT NULL` (from `list_done`). -/
  | doneIsNotNull
  /-- `done_at IS NULL` (from `list_undone`). -/
  | doneIsNull
  /-- `"c1 LIKE ?1 OR c2 LIKE ?1 OR ..."` over the text columns, with the
  bound pattern (from `find`).  An empty column list is the empty clause. -/
  | anyLike (cols : List String) (pat : String)
deriving DecidableEq

/-- Whether the textual clause the filter denotes parses: the empty
disjunction is the empty string, which does not. -/
def RowFilter.valid : RowFilter → Bool
  | .anyLike [] _ => false
  | _ => true

/-- `cell LIKE pat`: `NULL LIKE pat` is `NULL`, which does not satisfy the
`WHERE` clause. -/
def evalLike (pat : String) (cell : Option DbValue) : Bool :=
  match cell with
  | none => false
  | some v => likeMatch pat v.asSqlText

/-- Row-level truth of a `WHERE` clause. -/
def evalFilter : RowFilter → Row → Bool
  | .doneIsNotNull, r => r.done_at.isSome
  | .doneIsNull, r => r.done_at.isNone
  | .anyLike cols pat, r => cols.any (fun c => evalLike pat (cellOf r c))

/-- The two `ORDER BY` keys the source uses: `id` (the default) and
`done_at` (from `list_done`). -/
inductive OrderKey
  | byId
  | byDoneAt
deriving DecidableEq

/-- SQL ordering on nullable timestamps: `NULL` sorts first. -/
def doneAtLe (a b : Option Nat) : Bool :=
  match a, b with
  | none, _ => true
  | some _, none => false
  | some x, some y => x ≤ y

/-- The row ordering denoted by an `ORDER BY` key. -/
def OrderKey.rel : OrderKey → Row → Row → Prop
  | .byId => fun a b => a.id ≤ b.id
  | .byDoneAt => fun a b => doneAtLe a.done_at b.done_at = true

instance (k : OrderKey) : DecidableRel k.rel :=
  match k with
  | .byId => fun _ _ => Nat.decLe _ _
  | .byDoneAt => fun _ _ => instDecidableEqBool _ _

namespace SqliteFile

/-- `SqliteFile::select_items`: prepare the statement (failing on a
malformed clause), keep the rows satisfying the `WHERE` clause, sort them
by the `ORDER BY` key, and extract each row. -/
def select_items (st : FileState) (cond : Option RowFilter) (ord : Option OrderKey) :
    Except DbError (List DbItem) :=
  if (cond.map RowFilter.valid).getD true then
    let kept :=
      match cond with
      | some f => st.rows.filter (fun r => evalFilter f r)
      | none => st.rows
    let sorted := List.insertionSort (ord.getD .byId).rel kept
    mapE (to_db_item st.schema) sorted
  else .error .badQuery

/-- `SqliteFile::list_items`. -/
def list_items (st : FileState) : Except DbError (List DbItem) :=
  select_items st none none

/-- `SqliteFile::list_done`. -/
def list_done (st : FileState) : Except DbError (List DbItem) :=
  select_items st (some .doneIsNotNull) (some .byDoneAt)

/-- `SqliteFile::list_undone`. -/
def list_undone (st : FileState) : Except DbError (List DbItem) :=
  select_items st (some .doneIsNull) none

/-- The text columns of the schema, in schema order (the columns `find`
builds `LIKE` clauses for). -/
def textCols (schema : DbSchema) : List String :=
  (schema.fields.filter (fun f => f.field_type == .Text)).map (fun f => f.name)

/-- `SqliteFile::find`: `LIKE %needle%` over the text columns, OR-joined,
default order. -/
def find (st : FileState) (item_name : String) : Except DbError (List DbItem) :=
  select_items st (some (.anyLike (textCols st.schema) ("%" ++ item_name ++ "%"))) none

/-- `SqliteFile::insert`: `INSERT INTO items (<names>) VALUES (...)` with
the given fields as bound parameters.  A name that is not a table column
fails; the unnamed columns (in particular `done_at`) are left `NULL`, and
`id` is assigned by `AUTOINCREMENT`.  (Explicitly inserting into the
implicit `id`/`done_at` columns is not modelled; no caller does.) -/
def insert (st : FileState) (fields : List DbField) : Except DbError FileState :=
  match fields.find? (fun g => !((st.schema.fields.map (fun f => f.name)).contains g.name)) with
  | some g => .error (.noSuchColumn g.name)
  | none =>
    let row : Row :=
      { id := st.next_id
        cells := st.schema.fields.map
          (fun f => (f.name, (fields.find? (fun g => g.name == f.name)).map (fun g => g.value)))
        done_at := none }
    .ok { st with rows := st.rows ++ [row], next_id := st.next_id + 1 }

/-- `SqliteFile::delete`: `DELETE FROM items WHERE id=?1`; no row-count
check, so a missing id is silently a no-op. -/
def delete (st : FileState) (i : Nat) : Except DbError FileState :=
  .ok { st with rows := st.rows.filter (fun r => r.id != i) }

/-- `SqliteFile::done`: `UPDATE items SET done_at=?1 WHERE id=?2`, then
fail unless the affected-row count is exactly 1.  (With `id` a primary key
the count is 0 or 1, so the error case leaves no observable change.) -/
def done (st : FileState) (i : Nat) (t : Nat) : Except DbError FileState :=
  let count := st.rows.countP (fun r => r.id == i)
  if count == 1 then
    .ok { st with rows := st.rows.map (fun r => if r.id == i then { r with done_at := some t } else r) }
  else .error (.updateCount count)

/-- `SqliteFile::undone`: `UPDATE items SET done_at=NULL WHERE id=?1`, same
affected-row-count gate (with its own error message). -/
def undone (st : FileState) (i : Nat) : Except DbError FileState :=
  let count := st.rows.countP (fun r => r.id == i)
  if count == 1 then
    .ok { st with rows := st.rows.map (fun r => if r.id == i then { r with done_at := none } else r) }
  else .error (.itemMissing i)

/-- `SqliteFile::get`: `WHERE id=?1`, `optional()` maps "no rows" to
`None`. -/
def get (st : FileState) (i : Nat) : Except DbError (Option DbItem) :=
  match st.rows.find? (fun r => r.id == i) with
  | none => .ok none
  | some r =>
    match to_db_item st.schema r with
    | .error e => .error e
    | .ok it => .ok (some it)

/-- `SqliteFile::get_random`: `WHERE done_at IS NULL ORDER BY random()
LIMIT 1`, `optional()` maps "no rows" to `None`.  The engine's random
ordering is modelled by an arbitrary `shuffle` of the pending rows,
assumed (in the theorems) to be a permutation. -/
def get_random (st : FileState) (shuffle : List Row → List Row) :
    Except DbError (Option DbItem) :=
  match (shuffle (st.rows.filter (fun r => r.done_at.isNone))).head? with
  | none => .ok none
  | some r =>
    match to_db_item st.schema r with
    | .error e => .error e
    | .ok it => .ok (some it)

end SqliteFile

/-! ### The catalog (`SqliteDB`)

The embedded catalog is a directory; each collection is one file
`<name>.db` inside it.  We model the directory entry (`path` may be
absent, a plain file, or a directory) and the files it holds.  A file's
`content` is `some` open-able collection state when its `schema` table is
readable, and `none` for a file with no readable `schema` table — such as
the empty file `Connection::open` creates as a side effect when asked to
open a database that does not exist yet. -/

inductive PathKind
  | absent
  | plainFile
  | dir
deriving DecidableEq

/-- One entry of the catalog directory, split into stem and extension as
`list_files` inspects them. -/
structure FsFile where
  stem : String
  ext : String
  content : Option FileState
deriving DecidableEq

/-- The catalog directory state. -/
structure CatalogState where
  pathKind : PathKind
  files : List FsFile
deriving DecidableEq

namespace SqliteDB

/-- `SqliteDB::list_files`: a missing directory yields the empty list (not
an error); a non-directory path is an error; otherwise the stems of the
entries whose extension is exactly `db`. -/
def list_files (cs : CatalogState) : Except DbError (List String) :=
  match cs.pathKind with
  | .absent => .ok []
  | .plainFile => .error .fsError
  | .dir => .ok ((cs.files.filter (fun f => f.ext == "db")).map (fun f => f.stem))

/-- `SqliteDB::open`: `Connection::open` on `<dir>/<name>.db` creates the
file if it is missing (an empty database, with no `schema` table), then
`read_schema` runs.  The call errors when the schema cannot be read, but
the freshly created file persists.  (Names containing `.` would be mangled
by `set_extension`; the theorems below use plain names.)  Returns the
catalog state after the call together with the result. -/
def openDb (cs : CatalogState) (name : String) :
    CatalogState × Except DbError FileState :=
  match cs.pathKind with
  | .dir =>
    match cs.files.find? (fun f => f.stem == name && f.ext == "db") with
    | some f =>
      (cs, match f.content with
        | some fileSt => .ok fileSt
        | none => .error .schemaMissing)
    | none =>
      ({ cs with files := cs.files ++ [⟨name, "db", none⟩] }, .error .schemaMissing)
  | _ => (cs, .error .fsError)

/-- `SqliteDB::delete`: `fs::remove_file` on `<dir>/<name>.db`; errors when
that file does not exist, otherwise removes it (and with it every record of
the collection). -/
def delete (cs : CatalogState) (name : String) : Except DbError CatalogState :=
  if cs.files.any (fun f => f.stem == name && f.ext == "db") then
    .ok { cs with files := cs.files.filter (fun f => !(f.stem == name && f.ext == "db")) }
  else .error .fsError

end SqliteDB

/-! ### The remote backend (`src/http_client.rs`)

Each operation issues one HTTP request through `reqwest`; `send()` fails
only on transport errors (connection refused, timeout, ...) and returns
the response — whatever its status — otherwise.  We model the transport as
a function from the request to `Except String HttpResponse` and translate
each method faithfully: in particular, `HttpDBFile::done`,
`HttpDBFile::undone` and `HttpDB::delete` discard the response entirely
(`.send()?; Ok(())`), so they succeed whenever the transport does,
regardless of the response status. -/

/-- A response, abstracted to its status code (the discarded body is
irrelevant to the modelled methods). -/
structure HttpResponse where
  status : Nat
deriving DecidableEq

/-- A request: verb, path, optional JSON body. -/
structure HttpRequest where
  verb : String
  path : String
  body : Option String
deriving DecidableEq

/-- `reqwest::StatusCode::is_success`. -/
def statusIsSuccess (c : Nat) : Bool :=
  200 ≤ c && c < 300

namespace HttpDBFile

/-- `HttpDBFile::done`: `POST {url}/items/{id}/done` with the timestamp as
body; the response is discarded, so any delivered response — success or
not-found alike — yields `Ok(())`. -/
def done (send : HttpRequest → Except String HttpResponse) (url : String)
    (i : Nat) (t : Nat) : Except String Unit :=
  match send ⟨("POST"), url ++ "/items/" ++ toString i ++ "/done", some (toString t)⟩ with
  | .error e => .error e
  | .ok _ => .ok ()

/-- `HttpDBFile::undone`: `POST {url}/items/{id}/undone`; the response is
discarded. -/
def undone (send : HttpRequest → Except String HttpResponse) (url : String)
    (i : Nat) : Except String Unit :=
  match send ⟨("POST"), url ++ "/items/" ++ toString i ++ "/undone", none⟩ with
  | .error e => .error e
  | .ok _ => .ok ()

end HttpDBFile

namespace HttpDB

/-- `HttpDB::delete`: `DELETE {base}/delete/{name}`; the response is
discarded, so the call succeeds whenever the transport does, even when the
service reports that no such collection exists. -/
def delete (send : HttpRequest → Except String HttpResponse) (base : String)
    (name : String) : Except String Unit :=
  match send ⟨("DELETE"), base ++ "/delete/" ++ name, none⟩ with
  | .error e => .error e
  | .ok _ => .ok ()

end HttpDB

/-! ### State invariants

States reachable through the embedded backend satisfy: the rows are in
strictly increasing id order (ids are assigned by a monotone
`AUTOINCREMENT` sequence and rows are scanned in id order), every id is
below the sequence value, and every row decodes at the schema (each schema
column holds a non-`NULL` value of its declared type). -/

/-- Rows in strictly increasing id order (hence ids are distinct). -/
def IdsSorted (st : FileState) : Prop :=
  st.rows.Pairwise (fun a b => a.id < b.id)

/-- Every row id is below the `AUTOINCREMENT` sequence value. -/
def IdsBounded (st : FileState) : Prop :=
  ∀ r ∈ st.rows, r.id < st.next_id

/-- Every row decodes at the schema. -/
def WellTyped (st : FileState) : Prop :=
  ∀ r ∈ st.rows, (to_db_item st.schema r).isOk = true

/-- The conjunction of the reachable-state invariants. -/
def Inv (st : FileState) : Prop :=
  IdsSorted st ∧ IdsBounded st ∧ WellTyped st

instance (st : FileState) : Decidable (IdsSorted st) := by
  unfold IdsSorted; infer_instance

instance (st : FileState) : Decidable (IdsBounded st) := by
  unfold IdsBounded; infer_instance

instance (st : FileState) : Decidable (WellTyped st) := by
  unfold WellTyped; infer_instance

instance (st : FileState) : Decidable (Inv st) := by
  unfold Inv; infer_instance

/-- The record-level view of a row's completion state after an update:
the stored `done_at` of the (unique) row with the given id. -/
def doneAtOf (st : FileState) (i : Nat) : Option (Option Nat) :=
  (st.rows.find? (fun r => r.id == i)).map (fun r => r.done_at)

/-- The spec-side text matcher: a record matches when at least one of its
`Text`-valued fields matches the `LIKE` pattern. -/
def itemTextMatch (pat : String) (it : DbItem) : Bool :=
  it.fields.any (fun fl =>
    match fl.value with
    | .Text v => likeMatch pat v
    | _ => false)

/-! ### Operation traces

To state the id-uniqueness guarantee over a whole workload we run a
sequence of record operations against one open collection, as the CLI
does. -/

/-- One mutation against an open collection. -/
inductive Op
  | ins (fields : List DbField)
  | del (i : Nat)
  | mark (i : Nat) (t : Nat)
  | unmark (i : Nat)

/-- Apply one operation; the second component is the id the engine
assigned when the operation was a successful insert.  A failed statement
leaves the table unchanged. -/
def applyOp (st : FileState) : Op → FileState × Option Nat
  | .ins fields =>
    match SqliteFile.insert st fields with
    | .ok st' => (st', some st.next_id)
    | .error _ => (st, none)
  | .del i =>
    match SqliteFile.delete st i with
    | .ok st' => (st', none)
    | .error _ => (st, none)
  | .mark i t =>
    match SqliteFile.done st i t with
    | .ok st' => (st', none)
    | .error _ => (st, none)
  | .unmark i =>
    match SqliteFile.undone st i with
    | .ok st' => (st', none)
    | .error _ => (st, none)

/-- Run a sequence of operations, collecting the assigned ids in order. -/
def runOps (st : FileState) : List Op → FileState × List Nat
  | [] => (st, [])
  | op :: ops =>
    let p := applyOp st op
    let q := runOps p.1 ops
    (q.1, p.2.toList ++ q.2)

/-! ### Example states

Concrete states used to instantiate the theorems (the schema follows the
repository's own unit test). -/

/-- A schema with one text and one number column. -/
def exSchema : DbSchema := ⟨[⟨("txt"), .Text⟩, ⟨("n"), .Number⟩]⟩

/-- A pending row. -/
def exRow1 : Row := ⟨1, [(("txt"), some (.Text ("buy milk"))), (("n"), some (.Number 2))], none⟩

/-- A row completed at time 11. -/
def exRow2 : Row := ⟨2, [(("txt"), some (.Text ("Walk DOG"))), (("n"), some (.Number 5))], some 11⟩

/-- A collection state with one pending and one completed record. -/
def exSt : FileState := ⟨exSchema, [exRow1, exRow2], 3⟩

/-- An empty collection over a schema with no text columns. -/
def exNoTextSt : FileState := ⟨⟨[⟨("n"), .Number⟩]⟩, [], 1⟩

/-- A field set covering `exSchema`. -/
def exFields : List DbField := [⟨("txt"), .Text ("read book")⟩, ⟨("n"), .Number 1⟩]

/-- A workload: two inserts with a deletion and a completion in between. -/
def exOps : List Op := [.ins exFields, .del 1, .ins exFields, .mark 2 4]

/-- A field set covering `exSchema`, given in non-schema order. -/
def exFieldsRev : List DbField := [⟨("n"), .Number 7⟩, ⟨("txt"), .Text ("call mom")⟩]

/-! ### Helper lemmas -/

/-- A successful `mapE` relates inputs and outputs pointwise. -/
theorem mapE_ok_forall {α β : Type} {f : α → Except DbError β} :
    ∀ {l : List α} {ys : List β}, mapE f l = .ok ys →
      List.Forall₂ (fun x y => f x = .ok y) l ys := by
  intro l
  induction l with
  | nil => intro ys h; cases h; exact .nil
  | cons x xs ih =>
    intro ys h
    unfold mapE at h
    cases hf : f x with
    | error e => rw [hf] at h; cases h
    | ok y =>
      rw [hf] at h
      cases hm : mapE f xs with
      | error e => rw [hm] at h; cases h
      | ok ys' => rw [hm] at h; cases h; exact .cons hf (ih hm)

/-- `mapE` succeeds when every element maps successfully. -/
theorem mapE_of_forall_isOk {α β : Type} {f : α → Except DbError β} :
    ∀ {l : List α}, (∀ x ∈ l, (f x).isOk = true) →
      ∃ ys, mapE f l = .ok ys := by
  intro l
  induction l with
  | nil => intro _; exact ⟨[], rfl⟩
  | cons x xs ih =>
    intro h
    have hx := h x (by simp)
    cases hf : f x with
    | error e => rw [hf] at hx; cases hx
    | ok y =>
      obtain ⟨ys, hys⟩ := ih (fun z hz => h z (by simp [hz]))
      exact ⟨y :: ys, by unfold mapE; rw [hf, hys]⟩

/-- Every element of a successful `mapE`'s input maps successfully. -/
theorem mapE_isOk_of_ok {α β : Type} {f : α → Except DbError β} :
    ∀ {l : List α} {ys : List β}, mapE f l = .ok ys → ∀ x ∈ l, (f x).isOk = true := by
  intro l
  induction l with
  | nil => intro ys _ x hx; cases hx
  | cons z zs ih =>
    intro ys h x hx
    unfold mapE at h
    cases hf : f z with
    | error e => rw [hf] at h; cases h
    | ok y =>
      rw [hf] at h
      cases hm : mapE f zs with
      | error e => rw [hm] at h; cases h
      | ok ys' =>
        cases hx with
        | head => rw [hf]; rfl
        | tail _ hx => exact ih hm x hx

/-- `mapE` distributes over append when both halves succeed. -/
theorem mapE_append_ok {α β : Type} {f : α → Except DbError β} :
    ∀ {l₁ l₂ : List α} {y₁ y₂ : List β}, mapE f l₁ = .ok y₁ → mapE f l₂ = .ok y₂ →
      mapE f (l₁ ++ l₂) = .ok (y₁ ++ y₂) := by
  intro l₁
  induction l₁ with
  | nil => intro l₂ y₁ y₂ h1 h2; cases h1; simpa using h2
  | cons x xs ih =>
    intro l₂ y₁ y₂ h1 h2
    unfold mapE at h1
    cases hf : f x with
    | error e => rw [hf] at h1; cases h1
    | ok y =>
      rw [hf] at h1
      cases hm : mapE f xs with
      | error e => rw [hm] at h1; cases h1
      | ok ys' =>
        rw [hm] at h1
        cases h1
        show mapE f (x :: (xs ++ l₂)) = Except.ok (y :: (ys' ++ y₂))
        unfold mapE
        rw [hf, ih hm h2]

/-- Every element on the right of a `Forall₂` has a related element on the
left. -/
theorem forall₂_mem_right {α β : Type} {R : α → β → Prop} :
    ∀ {l : List α} {m : List β}, List.Forall₂ R l m → ∀ b ∈ m, ∃ a ∈ l, R a b := by
  intro l
  induction l with
  | nil => intro m hf b hb; cases hf; cases hb
  | cons x xs ih =>
    intro m hf b hb
    cases hf with
    | cons hxy htail =>
      cases hb with
      | head => exact ⟨x, by simp, hxy⟩
      | tail _ hb =>
        obtain ⟨a, ha, hr⟩ := ih htail b hb
        exact ⟨a, by simp [ha], hr⟩

/-- Transfer a `Pairwise` property along a pointwise `Forall₂`
correspondence. -/
theorem pairwise_of_forall₂ {α β : Type} {R : α → β → Prop} {S : α → α → Prop}
    {S' : β → β → Prop} :
    ∀ {l : List α} {m : List β}, List.Forall₂ R l m → List.Pairwise S l →
      (∀ a b a' b', R a a' → R b b' → S a b → S' a' b') → List.Pairwise S' m := by
  intro l
  induction l with
  | nil => intro m hf _ _; cases hf; exact .nil
  | cons x xs ih =>
    intro m hf hp himp
    cases hf with
    | cons hxy htail =>
      cases hp with
      | cons hx hps =>
        refine .cons ?_ (ih htail hps himp)
        intro b' hb'
        obtain ⟨b, hb, hrb⟩ := forall₂_mem_right htail b' hb'
        exact himp _ _ _ _ hxy hrb (hx b hb)

/-- Map both sides of a `Forall₂` to equal lists when the relation forces
pointwise equal images. -/
theorem forall₂_map_eq {α β γ : Type} {R : α → β → Prop} (k : α → γ) (h : β → γ) :
    ∀ {l : List α} {m : List β}, List.Forall₂ R l m →
      (∀ a b, R a b → h b = k a) → m.map h = l.map k := by
  intro l
  induction l with
  | nil => intro m hf _; cases hf; rfl
  | cons x xs ih =>
    intro m hf himp
    cases hf with
    | cons hxy htail => simp [himp _ _ hxy, ih htail himp]

/-- Unpack a successful `readCell`. -/
theorem readCell_ok {r : Row} {f : DbFieldDesc} {fl : DbField}
    (h : readCell r f = .ok fl) :
    fl.name = f.name ∧ cellOf r f.name = some fl.value ∧ fl.value.typeOf = f.field_type := by
  cases hc : cellOf r f.name with
  | none => simp [readCell, hc] at h
  | some v =>
    simp only [readCell, hc] at h
    split at h
    · cases h; exact ⟨rfl, rfl, by assumption⟩
    · cases h

/-- Unpack a successful `to_db_item`: the item keeps the row's id and
completion timestamp, and its fields arise from reading each schema
column. -/
theorem to_db_item_ok {schema : DbSchema} {r : Row} {it : DbItem}
    (h : to_db_item schema r = .ok it) :
    it.id = r.id ∧ it.completed_at = r.done_at
      ∧ List.Forall₂ (fun f fl => readCell r f = .ok fl) schema.fields it.fields := by
  unfold to_db_item at h
  cases hm : mapE (readCell r) schema.fields with
  | error e => rw [hm] at h; cases h
  | ok fields => rw [hm] at h; cases h; exact ⟨rfl, rfl, mapE_ok_forall hm⟩

/-- A `find?` over rows mapped through an id-preserving function. -/
theorem find?_map_pres (g : Row → Row) (hg : ∀ r, (g r).id = r.id) (i : Nat) :
    ∀ l : List Row,
      (l.map g).find? (fun r => r.id == i) = (l.find? (fun r => r.id == i)).map g := by
  intro l
  induction l with
  | nil => rfl
  | cons x xs ih =>
    rw [List.map_cons]
    by_cases hx : (x.id == i) = true
    · have hgx : ((g x).id == i) = true := by rw [hg x]; exact hx
      rw [List.find?_cons_of_pos (p := fun r : Row => r.id == i) _ hgx,
        List.find?_cons_of_pos (p := fun r : Row => r.id == i) _ hx]
      rfl
    · have hgx : ¬((g x).id == i) = true := by rw [hg x]; exact hx
      rw [List.find?_cons_of_neg (p := fun r : Row => r.id == i) _ hgx,
        List.find?_cons_of_neg (p := fun r : Row => r.id == i) _ hx, ih]

/-- Counting rows with a given id through an id-preserving map. -/
theorem countP_map_pres (g : Row → Row) (hg : ∀ r, (g r).id = r.id) (i : Nat)
    (l : List Row) :
    (l.map g).countP (fun r => r.id == i) = l.countP (fun r => r.id == i) := by
  rw [List.countP_map]
  exact List.countP_congr (fun r _ => by simp [Function.comp, hg r])

/-! ### C1 — done/undone row-count semantics -/

/-- C1 (amended): on the embedded backend, `done`/`undone` succeed exactly
when the affected-row count is 1; with distinct ids that means exactly when
the id exists, a missing id is an error, and for an existing id `done(i,t)`
sets the record's completion timestamp to `t` after which `undone(i)`
restores it to `None`.  On the remote backend, however, `done` and `undone`
ignore the response status entirely: whenever the transport delivers any
response at all they return success, even for an id the service reports as
absent. -/
theorem C1_done_undone_amended (st : FileState)
    (hnd : (st.rows.map Row.id).Nodup) (i t : Nat) :
    ((i ∉ st.rows.map Row.id →
        SqliteFile.done st i t = .error (.updateCount 0)
        ∧ SqliteFile.undone st i = .error (.itemMissing i))
      ∧ ((∃ st', SqliteFile.done st i t = .ok st') ↔
          st.rows.countP (fun r => r.id == i) = 1)
      ∧ (i ∈ st.rows.map Row.id →
          ∃ st₁ st₂, SqliteFile.done st i t = .ok st₁
            ∧ doneAtOf st₁ i = some (some t)
            ∧ SqliteFile.undone st₁ i = .ok st₂
            ∧ doneAtOf st₂ i = some none))
    ∧ (∀ send : HttpRequest → Except String HttpResponse,
        (∀ q, ∃ r, send q = .ok r) → ∀ url : String, ∀ i' t' : Nat,
          HttpDBFile.done send url i' t' = .ok ()
          ∧ HttpDBFile.undone send url i' = .ok ()) := by
  have hcount : st.rows.countP (fun r => r.id == i) = (st.rows.map Row.id).count i := by
    rw [List.count, List.countP_map]
    rfl
  constructor
  · refine ⟨?_, ?_, ?_⟩
    · intro hmem
      have h0 : st.rows.countP (fun r => r.id == i) = 0 := by
        rw [List.countP_eq_zero]
        intro r hr
        simp only [beq_iff_eq]
        exact fun he => hmem (he ▸ List.mem_map_of_mem Row.id hr)
      constructor
      · unfold SqliteFile.done
        rw [h0]
        rfl
      · unfold SqliteFile.undone
        rw [h0]
        rfl
    · constructor
      · rintro ⟨st', hst'⟩
        unfold SqliteFile.done at hst'
        by_cases hc : st.rows.countP (fun r => r.id == i) = 1
        · exact hc
        · rw [if_neg (by simpa using hc)] at hst'
          cases hst'
      · intro hc
        refine ⟨⟨st.schema,
          st.rows.map (fun r => if r.id == i then { r with done_at := some t } else r),
          st.next_id⟩, ?_⟩
        unfold SqliteFile.done
        rw [if_pos (by simpa using hc)]
    · intro hmem
      have hc1 : st.rows.countP (fun r => r.id == i) = 1 := by
        rw [hcount]
        exact List.count_eq_one_of_mem hnd hmem
      -- the updating functions, and the fact that they preserve ids
      set g : Row → Row := fun r => if r.id == i then { r with done_at := some t } else r with hg
      have hgid : ∀ r, (g r).id = r.id := by
        intro r
        simp only [hg]
        split <;> rfl
      set g' : Row → Row := fun r => if r.id == i then { r with done_at := none } else r with hg'
      have hgid' : ∀ r, (g' r).id = r.id := by
        intro r
        simp only [hg']
        split <;> rfl
      have hdone : SqliteFile.done st i t = .ok ⟨st.schema, st.rows.map g, st.next_id⟩ := by
        unfold SqliteFile.done
        rw [if_pos (by simpa using hc1)]
      have hc1' : (st.rows.map g).countP (fun r => r.id == i) = 1 := by
        rw [countP_map_pres g hgid]
        exact hc1
      have hundone : SqliteFile.undone ⟨st.schema, st.rows.map g, st.next_id⟩ i =
          .ok ⟨st.schema, (st.rows.map g).map g', st.next_id⟩ := by
        unfold SqliteFile.undone
        rw [if_pos (by simpa using hc1')]
      -- the row found by id after each update
      obtain ⟨r₀, hr₀, hid₀⟩ := List.mem_map.mp hmem
      have hsome : (st.rows.find? (fun r => r.id == i)).isSome = true := by
        rw [List.find?_isSome]
        exact ⟨r₀, hr₀, by simp [hid₀]⟩
      obtain ⟨r₁, hr₁⟩ := Option.isSome_iff_exists.mp hsome
      have hpr₁ : (r₁.id == i) = true := List.find?_some (p := fun r : Row => r.id == i) hr₁
      have hip : r₁.id = i := beq_iff_eq.mp hpr₁
      refine ⟨_, _, hdone, ?_, hundone, ?_⟩
      · unfold doneAtOf
        simp only [find?_map_pres g hgid i st.rows, hr₁]
        simp [hg, hip]
      · unfold doneAtOf
        simp only [find?_map_pres g' hgid' i (st.rows.map g),
          find?_map_pres g hgid i st.rows, hr₁]
        simp [hg, hg', hip]
  · intro send hsend url i' t'
    obtain ⟨r1, hr1⟩ := hsend ⟨("POST"), url ++ "/items/" ++ toString i' ++ "/done", some (toString t')⟩
    obtain ⟨r2, hr2⟩ := hsend ⟨("POST"), url ++ "/items/" ++ toString i' ++ "/undone", none⟩
    constructor
    · unfold HttpDBFile.done
      rw [hr1]
    · unfold HttpDBFile.undone
      rw [hr2]

/-- Counterexample for C1: on the remote backend, marking a record done or
undone when the service answers a not-found status (the wire contract's
response for a nonexistent id) still returns success — it does not return
an error as the claim requires of every collection handle. -/
theorem C1_counterexample :
    HttpDBFile.done (fun _ => .ok ⟨404⟩) ("http://host/coll") 99 7 = .ok ()
    ∧ HttpDBFile.undone (fun _ => .ok ⟨404⟩) ("http://host/coll") 99 = .ok () :=
  ⟨rfl, rfl⟩

/-- Witness for C1 at a concrete state: id 1 exists in `exSt`, id 9 does
not. -/
theorem C1_witness :
    (SqliteFile.done exSt 9 7 = .error (.updateCount 0)
      ∧ SqliteFile.undone exSt 9 = .error (.itemMissing 9))
    ∧ ∃ st₁ st₂, SqliteFile.done exSt 1 5 = .ok st₁
        ∧ doneAtOf st₁ 1 = some (some 5)
        ∧ SqliteFile.undone st₁ 1 = .ok st₂
        ∧ doneAtOf st₂ 1 = some none :=
  ⟨(C1_done_undone_amended exSt (by decide) 9 7).1.1 (by decide),
    (C1_done_undone_amended exSt (by decide) 1 5).1.2.2 (by decide)⟩

/-! ### C3 — catalog delete -/

/-- C3 (amended): on the embedded backend, `delete(name)` fails when no
file `<name>.db` exists and otherwise removes exactly that file (the
collection together with all its records).  On the remote backend, the
response status is discarded, so `delete` succeeds whenever the transport
delivers any response — it does not fail for a nonexistent collection. -/
theorem C3_delete_amended :
    (∀ cs : CatalogState, ∀ name : String,
      (cs.files.all (fun f => !(f.stem == name && f.ext == "db")) = true →
        SqliteDB.delete cs name = .error .fsError)
      ∧ (cs.files.any (fun f => f.stem == name && f.ext == "db") = true →
        ∃ cs', SqliteDB.delete cs name = .ok cs'
          ∧ cs'.pathKind = cs.pathKind
          ∧ (∀ f ∈ cs'.files, f ∈ cs.files ∧ ¬(f.stem = name ∧ f.ext = "db"))
          ∧ (∀ f ∈ cs.files, f ∈ cs'.files ∨ (f.stem = name ∧ f.ext = "db"))))
    ∧ (∀ send : HttpRequest → Except String HttpResponse,
        (∀ q, ∃ r, send q = .ok r) → ∀ base name : String,
          HttpDB.delete send base name = .ok ()) := by
  constructor
  · intro cs name
    constructor
    · intro habs
      have hany : cs.files.any (fun f => f.stem == name && f.ext == "db") = false := by
        rw [List.any_eq_false]
        intro f hf
        have h5 := List.all_eq_true.mp habs f hf
        simp only [Bool.not_eq_true'] at h5
        simp [h5]
      unfold SqliteDB.delete
      rw [hany]
      rfl
    · intro hany
      refine ⟨⟨cs.pathKind, cs.files.filter (fun f => !(f.stem == name && f.ext == "db"))⟩,
        ?_, rfl, ?_, ?_⟩
      · unfold SqliteDB.delete
        rw [hany]
        rfl
      · intro f hf
        rw [List.mem_filter] at hf
        refine ⟨hf.1, ?_⟩
        rintro ⟨h1, h2⟩
        simp [h1, h2] at hf
      · intro f hf
        by_cases hdel : (f.stem == name && f.ext == "db") = true
        · right
          simpa using hdel
        · left
          rw [List.mem_filter]
          exact ⟨hf, by simp only [Bool.not_eq_true] at hdel; simp [hdel]⟩
  · intro send hsend base name
    obtain ⟨r1, hr1⟩ := hsend ⟨("DELETE"), base ++ "/delete/" ++ name, none⟩
    unfold HttpDB.delete
    rw [hr1]

/-- Counterexample for C3: on the remote backend, deleting a collection the
service reports as absent (not-found response) still returns success, not
the error the claim requires of every catalog. -/
theorem C3_counterexample :
    HttpDB.delete (fun _ => .ok ⟨404⟩) ("http://host") ("missing") = .ok () :=
  rfl

/-- Witness for C3: a concrete catalog with one collection file. -/
theorem C3_witness :
    SqliteDB.delete ⟨.dir, []⟩ ("missing") = .error .fsError
    ∧ ∃ cs', SqliteDB.delete ⟨.dir, [⟨("todo"), ("db"), none⟩]⟩ ("todo") = .ok cs'
        ∧ cs'.pathKind = PathKind.dir
        ∧ (∀ f ∈ cs'.files, f ∈ [(⟨("todo"), ("db"), none⟩ : FsFile)]
            ∧ ¬(f.stem = ("todo") ∧ f.ext = ("db")))
        ∧ (∀ f ∈ [(⟨("todo"), ("db"), none⟩ : FsFile)],
            f ∈ cs'.files ∨ (f.stem = ("todo") ∧ f.ext = ("db"))) :=
  ⟨(C3_delete_amended.1 ⟨.dir, []⟩ ("missing")).1 (by decide),
    (C3_delete_amended.1 ⟨.dir, [⟨("todo"), ("db"), none⟩]⟩ ("todo")).2 (by decide)⟩

/-! ### Ordering facts for the `ORDER BY` relations -/

/-- Totality of the nullable-timestamp ordering. -/
theorem doneAtLe_total (a b : Option Nat) :
    doneAtLe a b = true ∨ doneAtLe b a = true := by
  cases a with
  | none => left; rfl
  | some x =>
    cases b with
    | none => right; rfl
    | some y =>
      simp only [doneAtLe, decide_eq_true_eq]
      omega

/-- Transitivity of the nullable-timestamp ordering. -/
theorem doneAtLe_trans (a b c : Option Nat) (h1 : doneAtLe a b = true)
    (h2 : doneAtLe b c = true) : doneAtLe a c = true := by
  cases a with
  | none => rfl
  | some x =>
    cases b with
    | none => simp [doneAtLe] at h1
    | some y =>
      cases c with
      | none => simp [doneAtLe] at h2
      | some z =>
        simp only [doneAtLe, decide_eq_true_eq] at h1 h2 ⊢
        omega

instance (k : OrderKey) : IsTotal Row k.rel :=
  ⟨by
    intro a b
    cases k with
    | byId => exact Nat.le_total a.id b.id
    | byDoneAt => exact doneAtLe_total a.done_at b.done_at⟩

instance (k : OrderKey) : IsTrans Row k.rel :=
  ⟨by
    intro a b c hab hbc
    cases k with
    | byId => exact le_trans hab hbc
    | byDoneAt => exact doneAtLe_trans a.done_at b.done_at c.done_at hab hbc⟩

/-- A successful `mapE` is a plain `map` of the value extractor. -/
theorem mapE_eq_map {α β : Type} {f : α → Except DbError β} (d : β) :
    ∀ {l : List α} {y : List β}, mapE f l = .ok y →
      y = l.map (fun x => ((f x).toOption).getD d) := by
  intro l
  induction l with
  | nil => intro y h; cases h; rfl
  | cons x xs ih =>
    intro y h
    unfold mapE at h
    cases hf : f x with
    | error e => rw [hf] at h; cases h
    | ok b =>
      rw [hf] at h
      cases hm : mapE f xs with
      | error e => rw [hm] at h; cases h
      | ok ys =>
        rw [hm] at h
        cases h
        simp only [List.map_cons, hf]
        rw [← ih hm]
        rfl

/-- Commute a successful `mapE` with corresponding row- and item-level
filters. -/
theorem mapE_filter_ok {f : Row → Except DbError DbItem} {p : Row → Bool}
    {q : DbItem → Bool} :
    ∀ {l : List Row} {la : List DbItem}, mapE f l = .ok la →
      List.Forall₂ (fun r it => p r = q it) l la →
      mapE f (l.filter p) = .ok (la.filter q) := by
  intro l
  induction l with
  | nil => intro la h hf; cases hf; exact h
  | cons x xs ih =>
    intro la h hf
    cases hf with
    | cons hpq htail =>
      unfold mapE at h
      cases hfx : f x with
      | error e => rw [hfx] at h; cases h
      | ok y =>
        rw [hfx] at h
        cases hm : mapE f xs with
        | error e => rw [hm] at h; cases h
        | ok ys =>
          rw [hm] at h
          cases h
          rw [List.filter_cons, List.filter_cons]
          by_cases hp : p x = true
          · rw [if_pos hp, if_pos (by rw [← hpq]; exact hp)]
            unfold mapE
            rw [hfx, ih hm htail]
          · rw [if_neg hp, if_neg (by rw [← hpq]; exact hp)]
            exact ih hm htail

/-! ### The shape of the three listings

Under the reachable-state invariants the three listing queries succeed,
`list_items` returns every record in strictly increasing id order,
`list_undone` is its restriction to the pending records (same order), and
`list_done` returns exactly the completed records sorted by completion
time. -/

theorem listings_spec (st : FileState) (hInv : Inv st) :
    ∃ la ld lu,
      SqliteFile.list_items st = .ok la
      ∧ SqliteFile.list_done st = .ok ld
      ∧ SqliteFile.list_undone st = .ok lu
      ∧ la.map DbItem.id = st.rows.map Row.id
      ∧ la.Pairwise (fun a b => a.id < b.id)
      ∧ lu = la.filter (fun it => it.completed_at.isNone)
      ∧ lu.Pairwise (fun a b => a.id < b.id)
      ∧ ld.Perm (la.filter (fun it => it.completed_at.isSome))
      ∧ ld.Pairwise (fun a b => doneAtLe a.completed_at b.completed_at = true) := by
  obtain ⟨hsorted, hbound, hwt⟩ := hInv
  have hsort_id : List.Sorted (OrderKey.rel .byId) st.rows :=
    hsorted.imp (fun h => le_of_lt h)
  -- list_items
  obtain ⟨la, hla⟩ := mapE_of_forall_isOk (l := st.rows) hwt
  have hitems : SqliteFile.list_items st = .ok la := by
    show mapE (to_db_item st.schema)
      (List.insertionSort (OrderKey.rel .byId) st.rows) = .ok la
    rw [List.Sorted.insertionSort_eq hsort_id]
    exact hla
  have hcorr := mapE_ok_forall hla
  have hids : la.map DbItem.id = st.rows.map Row.id :=
    forall₂_map_eq Row.id DbItem.id hcorr (fun r it h => (to_db_item_ok h).1)
  have hlapw : la.Pairwise (fun a b => a.id < b.id) :=
    pairwise_of_forall₂ hcorr hsorted (fun a b a' b' h1 h2 hs => by
      rw [(to_db_item_ok h1).1, (to_db_item_ok h2).1]; exact hs)
  -- list_undone
  have hfa : List.Forall₂
      (fun r it => evalFilter RowFilter.doneIsNull r = it.completed_at.isNone)
      st.rows la :=
    hcorr.imp (fun r it h => by rw [(to_db_item_ok h).2.1]; rfl)
  have hfl := mapE_filter_ok hla hfa
  have hpw_fil : (st.rows.filter (fun r => evalFilter RowFilter.doneIsNull r)).Pairwise
      (fun a b => a.id < b.id) := hsorted.filter _
  have hsortu : List.Sorted (OrderKey.rel .byId)
      (st.rows.filter (fun r => evalFilter RowFilter.doneIsNull r)) :=
    hpw_fil.imp (fun h => le_of_lt h)
  have hundone : SqliteFile.list_undone st =
      .ok (la.filter (fun it => it.completed_at.isNone)) := by
    show mapE (to_db_item st.schema)
      (List.insertionSort (OrderKey.rel .byId)
        (st.rows.filter (fun r => evalFilter RowFilter.doneIsNull r))) = _
    rw [List.Sorted.insertionSort_eq hsortu]
    exact hfl
  have hlupw : (la.filter (fun it => it.completed_at.isNone)).Pairwise
      (fun a b => a.id < b.id) := hlapw.filter _
  -- list_done
  have hfa2 : List.Forall₂
      (fun r it => evalFilter RowFilter.doneIsNotNull r = it.completed_at.isSome)
      st.rows la :=
    hcorr.imp (fun r it h => by rw [(to_db_item_ok h).2.1]; rfl)
  have hfl2 := mapE_filter_ok hla hfa2
  have hperm2 : (List.insertionSort (OrderKey.rel .byDoneAt)
      (st.rows.filter (fun r => evalFilter RowFilter.doneIsNotNull r))).Perm
      (st.rows.filter (fun r => evalFilter RowFilter.doneIsNotNull r)) :=
    List.perm_insertionSort _ _
  have hsubok : ∀ x ∈ List.insertionSort (OrderKey.rel .byDoneAt)
      (st.rows.filter (fun r => evalFilter RowFilter.doneIsNotNull r)),
      (to_db_item st.schema x).isOk = true := by
    intro x hx
    exact hwt x (List.mem_filter.mp ((List.mem_insertionSort _).mp hx)).1
  obtain ⟨ld, hld⟩ := mapE_of_forall_isOk hsubok
  have hdone : SqliteFile.list_done st = .ok ld := hld
  have hldperm : ld.Perm (la.filter (fun it => it.completed_at.isSome)) := by
    rw [mapE_eq_map ⟨0, [], none⟩ hld, mapE_eq_map ⟨0, [], none⟩ hfl2]
    exact hperm2.map _
  have hldpw : ld.Pairwise
      (fun a b => doneAtLe a.completed_at b.completed_at = true) := by
    have hsorted2 := List.sorted_insertionSort (OrderKey.rel .byDoneAt)
      (st.rows.filter (fun r => evalFilter RowFilter.doneIsNotNull r))
    exact pairwise_of_forall₂ (mapE_ok_forall hld) hsorted2
      (fun a b a' b' h1 h2 hs => by
        simp only [OrderKey.rel] at hs
        rw [(to_db_item_ok h1).2.1, (to_db_item_ok h2).2.1]
        exact hs)
  exact ⟨la, ld, la.filter (fun it => it.completed_at.isNone),
    hitems, hdone, hundone, hids, hlapw, rfl, hlupw, hldperm, hldpw⟩

/-! ### C8 — listing order and filters -/

/-- C8: `list_items` returns all records ordered by id ascending,
`list_done` returns exactly the completed records ordered by completion
time ascending, and `list_undone` returns exactly the pending records
ordered by id ascending. -/
theorem C8_listing_orders (st : FileState) (hInv : Inv st) :
    ∃ la ld lu,
      SqliteFile.list_items st = .ok la
      ∧ SqliteFile.list_done st = .ok ld
      ∧ SqliteFile.list_undone st = .ok lu
      ∧ la.map DbItem.id = st.rows.map Row.id
      ∧ la.Pairwise (fun a b => a.id < b.id)
      ∧ lu = la.filter (fun it => it.completed_at.isNone)
      ∧ lu.Pairwise (fun a b => a.id < b.id)
      ∧ ld.Perm (la.filter (fun it => it.completed_at.isSome))
      ∧ ld.Pairwise (fun a b => doneAtLe a.completed_at b.completed_at = true) :=
  listings_spec st hInv

/-- Witness for C8 at the concrete state `exSt`. -/
theorem C8_witness :
    ∃ la ld lu,
      SqliteFile.list_items exSt = .ok la
      ∧ SqliteFile.list_done exSt = .ok ld
      ∧ SqliteFile.list_undone exSt = .ok lu
      ∧ la.map DbItem.id = exSt.rows.map Row.id
      ∧ la.Pairwise (fun a b => a.id < b.id)
      ∧ lu = la.filter (fun it => it.completed_at.isNone)
      ∧ lu.Pairwise (fun a b => a.id < b.id)
      ∧ ld.Perm (la.filter (fun it => it.completed_at.isSome))
      ∧ ld.Pairwise (fun a b => doneAtLe a.completed_at b.completed_at = true) :=
  C8_listing_orders exSt (by decide)

/-! ### C6 — done/undone partition the records -/

/-- C6: at every reachable state the id sets of `list_done` and
`list_undone` are disjoint and their union is exactly the id set of
`list_items`, so each record's id belongs to exactly one of the two. -/
theorem C6_filter_partition (st : FileState) (hInv : Inv st) :
    ∃ la ld lu,
      SqliteFile.list_items st = .ok la
      ∧ SqliteFile.list_done st = .ok ld
      ∧ SqliteFile.list_undone st = .ok lu
      ∧ (∀ i, ¬(i ∈ ld.map DbItem.id ∧ i ∈ lu.map DbItem.id))
      ∧ (∀ i, i ∈ la.map DbItem.id ↔ (i ∈ ld.map DbItem.id ∨ i ∈ lu.map DbItem.id)) := by
  obtain ⟨la, ld, lu, h1, h2, h3, hids, hpw, hlu, _, hldperm, _⟩ := listings_spec st hInv
  have hnodup : (la.map DbItem.id).Nodup :=
    List.pairwise_map.mpr (hpw.imp (fun h => ne_of_lt h))
  have hinj := List.inj_on_of_nodup_map hnodup
  refine ⟨la, ld, lu, h1, h2, h3, ?_, ?_⟩
  · rintro i ⟨hd, hup⟩
    obtain ⟨itd, hitd, hiditd⟩ := List.mem_map.mp hd
    obtain ⟨itu, hitu, hiditu⟩ := List.mem_map.mp hup
    have hd' := List.mem_filter.mp (hldperm.subset hitd)
    rw [hlu] at hitu
    have hu' := List.mem_filter.mp hitu
    have heq : itd = itu := hinj hd'.1 hu'.1 (by rw [hiditd, hiditu])
    rw [heq] at hd'
    rw [Option.isSome_iff_ne_none] at hd'
    exact hd'.2 (Option.isNone_iff_eq_none.mp hu'.2)
  · intro i
    constructor
    · intro hi
      obtain ⟨it, hit, rfl⟩ := List.mem_map.mp hi
      by_cases hc : it.completed_at.isSome = true
      · exact Or.inl (List.mem_map_of_mem _
          (hldperm.mem_iff.mpr (List.mem_filter.mpr ⟨hit, hc⟩)))
      · refine Or.inr ?_
        rw [hlu]
        refine List.mem_map_of_mem _ (List.mem_filter.mpr ⟨hit, ?_⟩)
        cases hoc : it.completed_at with
        | none => rfl
        | some v => exact absurd (by rw [hoc]; rfl) hc
    · intro h
      cases h with
      | inl hd =>
        obtain ⟨it, hit, rfl⟩ := List.mem_map.mp hd
        exact List.mem_map_of_mem _ (List.mem_filter.mp (hldperm.subset hit)).1
      | inr hup =>
        obtain ⟨it, hit, rfl⟩ := List.mem_map.mp hup
        rw [hlu] at hit
        exact List.mem_map_of_mem _ (List.mem_filter.mp hit).1

/-- Witness for C6 at the concrete state `exSt`. -/
theorem C6_witness :
    ∃ la ld lu,
      SqliteFile.list_items exSt = .ok la
      ∧ SqliteFile.list_done exSt = .ok ld
      ∧ SqliteFile.list_undone exSt = .ok lu
      ∧ (∀ i, ¬(i ∈ ld.map DbItem.id ∧ i ∈ lu.map DbItem.id))
      ∧ (∀ i, i ∈ la.map DbItem.id ↔ (i ∈ ld.map DbItem.id ∨ i ∈ lu.map DbItem.id)) :=
  C6_filter_partition exSt (by decide)

/-! ### C4 — the random pick's domain -/

/-- Evaluation of `get_random` when the shuffled pending list is
nonempty. -/
theorem get_random_eq_cons {st : FileState} {shuffle : List Row → List Row}
    {r : Row} {rest : List Row}
    (hsp : shuffle (st.rows.filter (fun r => r.done_at.isNone)) = r :: rest) :
    SqliteFile.get_random st shuffle =
      match to_db_item st.schema r with
      | .error e => .error e
      | .ok it => .ok (some it) := by
  unfold SqliteFile.get_random
  rw [hsp]
  rfl

/-- C4: `get_random` never returns a completed record, and it returns
`none` exactly when `list_undone` is empty. -/
theorem C4_get_random (st : FileState) (shuffle : List Row → List Row)
    (hwt : WellTyped st)
    (hs : (shuffle (st.rows.filter (fun r => r.done_at.isNone))).Perm
        (st.rows.filter (fun r => r.done_at.isNone))) :
    ∃ res u, SqliteFile.get_random st shuffle = .ok res
      ∧ SqliteFile.list_undone st = .ok u
      ∧ (∀ it, res = some it → it.completed_at = none)
      ∧ (res = none ↔ u = []) := by
  have hsubok : ∀ x ∈ List.insertionSort (OrderKey.rel .byId)
      (st.rows.filter (fun r => r.done_at.isNone)),
      (to_db_item st.schema x).isOk = true := by
    intro x hx
    exact hwt x (List.mem_filter.mp ((List.mem_insertionSort _).mp hx)).1
  obtain ⟨u, hu⟩ := mapE_of_forall_isOk hsubok
  have hlu : SqliteFile.list_undone st = .ok u := hu
  have h1 := (mapE_ok_forall hu).length_eq
  rw [List.length_insertionSort] at h1
  cases hsp : shuffle (st.rows.filter (fun r => r.done_at.isNone)) with
  | nil =>
    have hpnil : st.rows.filter (fun r => r.done_at.isNone) = [] := by
      have hsp2 := hs
      rw [hsp] at hsp2
      exact hsp2.symm.eq_nil
    have hunil : u = [] := by
      rw [hpnil] at h1
      exact List.eq_nil_of_length_eq_zero (by simpa using h1.symm)
    refine ⟨none, u, ?_, hlu, ?_, ?_⟩
    · unfold SqliteFile.get_random
      rw [hsp]
      rfl
    · intro it hcontr
      exact Option.noConfusion hcontr
    · exact ⟨fun _ => hunil, fun _ => rfl⟩
  | cons r rest =>
    have hrmem : r ∈ st.rows.filter (fun r => r.done_at.isNone) := by
      refine hs.subset ?_
      rw [hsp]
      exact List.mem_cons_self r rest
    have hok := hwt r (List.mem_filter.mp hrmem).1
    obtain ⟨it, hit⟩ : ∃ it, to_db_item st.schema r = .ok it := by
      cases hti : to_db_item st.schema r with
      | ok it => exact ⟨it, rfl⟩
      | error e => rw [hti] at hok; cases hok
    refine ⟨some it, u, ?_, hlu, ?_, ?_⟩
    · rw [get_random_eq_cons hsp, hit]
    · intro it' h'
      have heq : some it = some it' := h'
      cases heq
      rw [(to_db_item_ok hit).2.1]
      exact Option.isNone_iff_eq_none.mp (List.mem_filter.mp hrmem).2
    · constructor
      · intro hcontr
        exact Option.noConfusion hcontr
      · intro hunil
        exfalso
        rw [hunil] at h1
        simp only [List.length_nil] at h1
        rw [List.eq_nil_of_length_eq_zero h1] at hrmem
        exact absurd hrmem (List.not_mem_nil r)

/-- Witness for C4 at the concrete state `exSt` with the identity
shuffle. -/
theorem C4_witness :
    ∃ res u, SqliteFile.get_random exSt (fun l => l) = .ok res
      ∧ SqliteFile.list_undone exSt = .ok u
      ∧ (∀ it, res = some it → it.completed_at = none)
      ∧ (res = none ↔ u = []) :=
  C4_get_random exSt (fun l => l) (by decide) (List.Perm.refl _)

/-! ### C7 — id assignment across a workload -/

/-- Shape of a successful insert: one appended row carrying the sequence
id, the looked-up cell values, and no completion timestamp. -/
theorem insert_ok_shape {st : FileState} {fields : List DbField} {st' : FileState}
    (h : SqliteFile.insert st fields = .ok st') :
    st'.schema = st.schema
    ∧ st'.rows = st.rows ++
        [⟨st.next_id,
          st.schema.fields.map
            (fun f => (f.name, (fields.find? (fun g => g.name == f.name)).map (fun g => g.value))),
          none⟩]
    ∧ st'.next_id = st.next_id + 1 := by
  unfold SqliteFile.insert at h
  cases hf : fields.find?
      (fun g => !((st.schema.fields.map (fun f => f.name)).contains g.name)) with
  | some g => rw [hf] at h; cases h
  | none => rw [hf] at h; cases h; exact ⟨rfl, rfl, rfl⟩

/-- `done` keeps the schema and the id sequence. -/
theorem done_ok_parts {st : FileState} {i t : Nat} {st' : FileState}
    (h : SqliteFile.done st i t = .ok st') :
    st'.schema = st.schema ∧ st'.next_id = st.next_id := by
  simp only [SqliteFile.done] at h
  split at h
  · cases h; exact ⟨rfl, rfl⟩
  · cases h

/-- `undone` keeps the schema and the id sequence. -/
theorem undone_ok_parts {st : FileState} {i : Nat} {st' : FileState}
    (h : SqliteFile.undone st i = .ok st') :
    st'.schema = st.schema ∧ st'.next_id = st.next_id := by
  simp only [SqliteFile.undone] at h
  split at h
  · cases h; exact ⟨rfl, rfl⟩
  · cases h

/-- Record deletion always succeeds, filtering the rows. -/
theorem delete_parts (st : FileState) (i : Nat) :
    SqliteFile.delete st i = .ok { st with rows := st.rows.filter (fun r => r.id != i) } :=
  rfl

/-- The id sequence never decreases across an operation. -/
theorem applyOp_next_id_le (st : FileState) (op : Op) :
    st.next_id ≤ (applyOp st op).1.next_id := by
  cases op with
  | ins fields =>
    simp only [applyOp]
    cases hf : SqliteFile.insert st fields with
    | ok st' =>
      show st.next_id ≤ st'.next_id
      rw [(insert_ok_shape hf).2.2]
      exact Nat.le_succ _
    | error e => exact le_refl _
  | del i =>
    simp only [applyOp]
    cases hf : SqliteFile.delete st i with
    | ok st' =>
      show st.next_id ≤ st'.next_id
      have h2 := delete_parts st i
      rw [h2] at hf
      cases hf
      exact le_refl _
    | error e => exact le_refl _
  | mark i t =>
    simp only [applyOp]
    cases hf : SqliteFile.done st i t with
    | ok st' =>
      show st.next_id ≤ st'.next_id
      rw [(done_ok_parts hf).2]
    | error e => exact le_refl _
  | unmark i =>
    simp only [applyOp]
    cases hf : SqliteFile.undone st i with
    | ok st' =>
      show st.next_id ≤ st'.next_id
      rw [(undone_ok_parts hf).2]
    | error e => exact le_refl _

/-- An assigned id is the sequence value, and the sequence moves past
it. -/
theorem applyOp_assigned {st : FileState} {op : Op} {j : Nat}
    (h : (applyOp st op).2 = some j) :
    j = st.next_id ∧ (applyOp st op).1.next_id = st.next_id + 1 := by
  cases op with
  | ins fields =>
    simp only [applyOp] at h ⊢
    cases hf : SqliteFile.insert st fields with
    | ok st' =>
      rw [hf] at h
      have hj : some st.next_id = some j := h
      cases hj
      exact ⟨rfl, (insert_ok_shape hf).2.2⟩
    | error e =>
      rw [hf] at h
      exact Option.noConfusion h
  | del i =>
    simp only [applyOp] at h
    cases hf : SqliteFile.delete st i with
    | ok st' => rw [hf] at h; exact Option.noConfusion h
    | error e => rw [hf] at h; exact Option.noConfusion h
  | mark i t =>
    simp only [applyOp] at h
    cases hf : SqliteFile.done st i t with
    | ok st' => rw [hf] at h; exact Option.noConfusion h
    | error e => rw [hf] at h; exact Option.noConfusion h
  | unmark i =>
    simp only [applyOp] at h
    cases hf : SqliteFile.undone st i with
    | ok st' => rw [hf] at h; exact Option.noConfusion h
    | error e => rw [hf] at h; exact Option.noConfusion h

/-- Across a workload, every assigned id is at least the starting sequence
value, and the assigned ids are strictly increasing. -/
theorem runOps_bounds :
    ∀ (ops : List Op) (st : FileState),
      (∀ j ∈ (runOps st ops).2, st.next_id ≤ j)
      ∧ List.Pairwise (· < ·) (runOps st ops).2 := by
  intro ops
  induction ops with
  | nil => intro st; exact ⟨fun j hj => absurd hj (by simp [runOps]), .nil⟩
  | cons op ops ih =>
    intro st
    obtain ⟨ihb, ihp⟩ := ih (applyOp st op).1
    have hstep := applyOp_next_id_le st op
    cases ha : (applyOp st op).2 with
    | none =>
      constructor
      · intro j hj
        simp only [runOps, ha, Option.toList, List.nil_append] at hj
        exact le_trans hstep (ihb j hj)
      · simp only [runOps, ha, Option.toList, List.nil_append]
        exact ihp
    | some j =>
      obtain ⟨hj, hnext⟩ := applyOp_assigned ha
      constructor
      · intro k hk
        simp only [runOps, ha, Option.toList, List.singleton_append, List.mem_cons] at hk
        cases hk with
        | inl he => rw [he, hj]
        | inr hk =>
          have h1 := ihb k hk
          rw [hnext] at h1
          omega
      · simp only [runOps, ha, Option.toList, List.singleton_append]
        refine List.Pairwise.cons ?_ ihp
        intro k hk
        have h1 := ihb k hk
        rw [hnext] at h1
        omega

/-- C7: over any workload of inserts with deletions (and completion
updates) interleaved, the ids assigned to inserted records are strictly
increasing in insertion order (hence pairwise distinct), and every
assigned id differs from — indeed exceeds — the id of every record already
in the collection, so an id is never reused within the collection's
lifetime. -/
theorem C7_ids_strictly_increasing (st : FileState) (ops : List Op)
    (hb : IdsBounded st) :
    List.Pairwise (· < ·) (runOps st ops).2
    ∧ ∀ j ∈ (runOps st ops).2, ∀ r ∈ st.rows, r.id < j := by
  obtain ⟨hbound, hpair⟩ := runOps_bounds ops st
  exact ⟨hpair, fun j hj r hr => lt_of_lt_of_le (hb r hr) (hbound j hj)⟩

/-- Witness for C7 on a concrete workload. -/
theorem C7_witness :
    List.Pairwise (· < ·) (runOps exSt exOps).2
    ∧ ∀ j ∈ (runOps exSt exOps).2, ∀ r ∈ exSt.rows, r.id < j :=
  C7_ids_strictly_increasing exSt exOps (by decide)

/-! ### C9 — FieldType textual round trip -/

/-- C9: every `DbFieldType` round-trips through its textual representation
(the four names serialize/deserialize exactly), and decoding any string
that is not one of the four names fails rather than producing a default
type. -/
theorem C9_fieldtype_roundtrip :
    (∀ t : DbFieldType, DbFieldType.ofText (DbFieldType.asText t) = some t)
    ∧ (∀ s : String, (∀ t : DbFieldType, DbFieldType.asText t ≠ s) →
        DbFieldType.ofText s = none) := by
  constructor
  · intro t; cases t <;> rfl
  · intro s h
    have h1 : (s == "Text") = false :=
      beq_eq_false_iff_ne.mpr (fun hh => h .Text hh.symm)
    have h2 : (s == "Number") = false :=
      beq_eq_false_iff_ne.mpr (fun hh => h .Number hh.symm)
    have h3 : (s == "Boolean") = false :=
      beq_eq_false_iff_ne.mpr (fun hh => h .Boolean hh.symm)
    have h4 : (s == "DateTime") = false :=
      beq_eq_false_iff_ne.mpr (fun hh => h .DateTime hh.symm)
    simp [DbFieldType.ofText, h1, h2, h3, h4]

/-- Witness for C9: a misspelled type name is a decode failure. -/
theorem C9_witness : DbFieldType.ofText ("Datetime") = none :=
  C9_fieldtype_roundtrip.2 ("Datetime") (by intro t; cases t <;> decide)

/-! ### C10 — `open` on a missing collection errors but creates the file -/

/-- C10: on the embedded backend, opening a collection that does not exist
returns an error (its schema table cannot be read) but is not side-effect
free: `Connection::open` creates an empty `<name>.db` file, so a subsequent
`list_files` includes the name even though no collection was ever created
under it. -/
theorem C10_open_side_effect (cs : CatalogState) (name : String)
    (hdir : cs.pathKind = .dir)
    (habs : cs.files.all (fun f => !(f.stem == name && f.ext == "db")) = true) :
    (SqliteDB.openDb cs name).2 = .error .schemaMissing
    ∧ ∃ l, SqliteDB.list_files (SqliteDB.openDb cs name).1 = .ok l ∧ name ∈ l := by
  obtain ⟨pk, fls⟩ := cs
  have hpk : pk = .dir := hdir
  subst hpk
  have hfind : fls.find? (fun f => f.stem == name && f.ext == "db") = none := by
    rw [List.find?_eq_none]
    intro f hf
    have h5 := List.all_eq_true.mp habs f hf
    simp only [Bool.not_eq_true'] at h5
    simp [h5]
  have hopen : SqliteDB.openDb ⟨.dir, fls⟩ name =
      (⟨.dir, fls ++ [⟨name, "db", none⟩]⟩, .error .schemaMissing) := by
    simp [SqliteDB.openDb, hfind]
  rw [hopen]
  refine ⟨rfl, ?_⟩
  refine ⟨_, rfl, ?_⟩
  simp [List.filter_append]

/-- Witness for C10 at the empty catalog. -/
theorem C10_witness :
    (SqliteDB.openDb ⟨.dir, []⟩ ("ideas")).2 = .error .schemaMissing
    ∧ ∃ l, SqliteDB.list_files (SqliteDB.openDb ⟨.dir, []⟩ ("ideas")).1 = .ok l
        ∧ ("ideas") ∈ l :=
  C10_open_side_effect ⟨.dir, []⟩ ("ideas") rfl rfl

/-! ### C2 — search over the text columns -/

/-- Evaluating `select_items` with a well-formed `WHERE` clause. -/
theorem select_items_of_valid {st : FileState} {fil : RowFilter} {ord : Option OrderKey}
    (hv : fil.valid = true) :
    SqliteFile.select_items st (some fil) ord =
      mapE (to_db_item st.schema)
        (List.insertionSort (ord.getD .byId).rel
          (st.rows.filter (fun r => evalFilter fil r))) := by
  unfold SqliteFile.select_items
  rw [show (Option.map RowFilter.valid (some fil)).getD true = true from hv]
  rfl

/-- Evaluating `select_items` with a malformed `WHERE` clause. -/
theorem select_items_of_invalid {st : FileState} {fil : RowFilter} {ord : Option OrderKey}
    (hv : fil.valid = false) :
    SqliteFile.select_items st (some fil) ord = .error .badQuery := by
  unfold SqliteFile.select_items
  rw [show (Option.map RowFilter.valid (some fil)).getD true = false from hv]
  rfl

/-- A decoded row satisfies the OR-of-`LIKE`s over the text columns exactly
when the decoded item has a matching `Text` field. -/
theorem anylike_eq_itemmatch {r : Row} (pat : String) :
    ∀ {fs : List DbFieldDesc} {fls : List DbField},
      List.Forall₂ (fun f fl => readCell r f = .ok fl) fs fls →
      ((fs.filter (fun f => f.field_type == .Text)).map (fun f => f.name)).any
        (fun c => evalLike pat (cellOf r c))
      = fls.any (fun fl => match fl.value with
          | .Text v => likeMatch pat v
          | _ => false) := by
  intro fs
  induction fs with
  | nil => intro fls hf; cases hf; rfl
  | cons f fs ih =>
    intro fls hf
    cases hf with
    | @cons _ fl _ fls' hffl htail =>
      obtain ⟨hname, hcell, htype⟩ := readCell_ok hffl
      rw [List.filter_cons]
      by_cases ht : (f.field_type == DbFieldType.Text) = true
      · rw [if_pos ht, List.map_cons, List.any_cons, List.any_cons, ih htail]
        congr 1
        rw [hcell]
        have hvt : fl.value.typeOf = DbFieldType.Text := by
          rw [htype]
          exact (beq_iff_eq.mp ht)
        cases hv : fl.value with
        | Text v => rfl
        | Number n => rw [hv] at hvt; cases hvt
        | Boolean b => rw [hv] at hvt; cases hvt
        | DateTime t => rw [hv] at hvt; cases hvt
      · rw [if_neg ht, ih htail, List.any_cons]
        have hfl_false : (match fl.value with
            | DbValue.Text v => likeMatch pat v
            | _ => false) = false := by
          cases hv : fl.value with
          | Text v =>
            exfalso
            rw [hv] at htype
            exact ht (by rw [← htype]; rfl)
          | Number n => rfl
          | Boolean b => rfl
          | DateTime t => rfl
        rw [hfl_false, Bool.false_or]

/-- C2 (amended): `find(s)` matches with SQLite `LIKE` semantics — it
returns exactly the records with at least one `Text` field matching the
pattern `%s%` (ASCII-case-insensitively, with `%`/`_` in `s` acting as
wildcards), in id order; and when the schema has no text columns the
generated statement has an empty `WHERE` clause, so `find` returns an
error, not the empty sequence. -/
theorem C2_find_amended (st : FileState) (s : String) (hInv : Inv st) :
    (SqliteFile.textCols st.schema = [] →
      SqliteFile.find st s = .error .badQuery)
    ∧ (SqliteFile.textCols st.schema ≠ [] →
      ∃ la, SqliteFile.list_items st = .ok la
        ∧ SqliteFile.find st s =
            .ok (la.filter (fun it => itemTextMatch ("%" ++ s ++ "%") it))) := by
  obtain ⟨hsorted, hbound, hwt⟩ := hInv
  constructor
  · intro hempty
    unfold SqliteFile.find
    rw [hempty]
    exact select_items_of_invalid rfl
  · intro hne
    obtain ⟨la, hla⟩ := mapE_of_forall_isOk (l := st.rows) hwt
    have hsort_id : List.Sorted (OrderKey.rel .byId) st.rows :=
      hsorted.imp (fun h => le_of_lt h)
    have hitems : SqliteFile.list_items st = .ok la := by
      show mapE (to_db_item st.schema)
        (List.insertionSort (OrderKey.rel .byId) st.rows) = .ok la
      rw [List.Sorted.insertionSort_eq hsort_id]
      exact hla
    have hcorr := mapE_ok_forall hla
    have hfa : List.Forall₂ (fun r it =>
        evalFilter (.anyLike (SqliteFile.textCols st.schema) ("%" ++ s ++ "%")) r
          = itemTextMatch ("%" ++ s ++ "%") it) st.rows la :=
      hcorr.imp (fun r it h => by
        show (SqliteFile.textCols st.schema).any
            (fun c => evalLike ("%" ++ s ++ "%") (cellOf r c)) = _
        unfold SqliteFile.textCols
        exact anylike_eq_itemmatch ("%" ++ s ++ "%") (to_db_item_ok h).2.2)
    have hfl := mapE_filter_ok hla hfa
    have hpw_fil : (st.rows.filter (fun r =>
        evalFilter (.anyLike (SqliteFile.textCols st.schema) ("%" ++ s ++ "%")) r)).Pairwise
        (fun a b => a.id < b.id) := hsorted.filter _
    have hsortf : List.Sorted (OrderKey.rel .byId)
        (st.rows.filter (fun r =>
          evalFilter (.anyLike (SqliteFile.textCols st.schema) ("%" ++ s ++ "%")) r)) :=
      hpw_fil.imp (fun h => le_of_lt h)
    have hvalid : (RowFilter.anyLike (SqliteFile.textCols st.schema)
        ("%" ++ s ++ "%")).valid = true := by
      cases hcols : SqliteFile.textCols st.schema with
      | nil => exact absurd hcols hne
      | cons c cs => rfl
    refine ⟨la, hitems, ?_⟩
    unfold SqliteFile.find
    rw [select_items_of_valid hvalid]
    rw [show (Option.getD (none : Option OrderKey) OrderKey.byId) = OrderKey.byId from rfl]
    rw [List.Sorted.insertionSort_eq hsortf]
    exact hfl

/-- Counterexample for C2: over a schema with no text columns, `find`
returns an error (the generated SQL has an empty `WHERE` clause), not the
empty sequence the claim requires. -/
theorem C2_counterexample :
    SqliteFile.find exNoTextSt ("x") = .error .badQuery
    ∧ SqliteFile.find exNoTextSt ("x") ≠ .ok [] := by
  constructor
  · rfl
  · intro h
    rw [show SqliteFile.find exNoTextSt ("x") = .error .badQuery from rfl] at h
    exact Except.noConfusion h

/-- Witness for C2 at the concrete state `exSt`. -/
theorem C2_witness :
    ∃ la, SqliteFile.list_items exSt = .ok la
      ∧ SqliteFile.find exSt ("milk") =
          .ok (la.filter (fun it => itemTextMatch ("%" ++ ("milk") ++ "%") it)) :=
  (C2_find_amended exSt ("milk") (by decide)).2 (by decide)

/-! ### C5 — insert/list round trip -/

/-- Removing an element that fails the predicate does not change
`find?`. -/
theorem find?_erase {γ : Type} [DecidableEq γ] {p : γ → Bool} {a : γ} :
    ∀ {l : List γ}, a ∈ l → p a = false → (l.erase a).find? p = l.find? p := by
  intro l
  induction l with
  | nil => intro h _; cases h
  | cons x xs ih =>
    intro hmem hpa
    rw [List.erase_cons]
    by_cases hx : x = a
    · rw [if_pos (beq_iff_eq.mpr hx)]
      rw [List.find?_cons_of_neg _ (fun hc => by rw [hx, hpa] at hc; cases hc)]
    · rw [if_neg (fun hc => hx (beq_iff_eq.mp hc))]
      have hmem' : a ∈ xs := by
        cases hmem with
        | head => exact absurd rfl hx
        | tail _ h => exact h
      by_cases hp : p x = true
      · rw [List.find?_cons_of_pos _ hp, List.find?_cons_of_pos _ hp]
      · rw [List.find?_cons_of_neg _ hp, List.find?_cons_of_neg _ hp]
        exact ih hmem' hpa

/-- `Forall₂.imp` with access to left membership. -/
theorem forall₂_imp_mem {α β : Type} {R S : α → β → Prop} :
    ∀ {l : List α} {m : List β}, List.Forall₂ R l m →
      (∀ a ∈ l, ∀ b, R a b → S a b) → List.Forall₂ S l m := by
  intro l
  induction l with
  | nil => intro m hf _; cases hf; exact .nil
  | cons x xs ih =>
    intro m hf himp
    cases hf with
    | cons hxy htail =>
      exact .cons (himp x (by simp) _ hxy)
        (ih htail (fun a ha b hr => himp a (by simp [ha]) b hr))

/-- Two `Forall₂`s over the same keys with a functional relation have equal
right-hand lists. -/
theorem forall₂_functional_eq {γ : Type} {Q : String → γ → Prop}
    (hfun : ∀ n g1 g2, Q n g1 → Q n g2 → g1 = g2) :
    ∀ {ns : List String} {l1 l2 : List γ},
      List.Forall₂ Q ns l1 → List.Forall₂ Q ns l2 → l1 = l2 := by
  intro ns
  induction ns with
  | nil => intro l1 l2 h1 h2; cases h1; cases h2; rfl
  | cons n ns ih =>
    intro l1 l2 h1 h2
    cases h1 with
    | cons hq1 ht1 =>
      cases h2 with
      | cons hq2 ht2 => rw [hfun n _ _ hq1 hq2, ih ht1 ht2]

/-- Looking a schema column up in the freshly inserted row's cells yields
the bound parameter for that column. -/
theorem find?_assoc_map (fields : List DbField) :
    ∀ (fs : List DbFieldDesc) (n : String), n ∈ fs.map (fun f => f.name) →
      (fs.map (fun f => (f.name,
        (fields.find? (fun g => g.name == f.name)).map (fun g => g.value)))).find?
          (fun p => p.1 == n)
      = some (n, (fields.find? (fun g => g.name == n)).map (fun g => g.value)) := by
  intro fs
  induction fs with
  | nil => intro n hn; cases hn
  | cons f fs ih =>
    intro n hn
    rw [List.map_cons]
    by_cases he : (f.name == n) = true
    · have heq : f.name = n := beq_iff_eq.mp he
      subst heq
      simp only [List.find?_cons]
      simp
    · have hf : (f.name == n) = false := by
        revert he
        cases f.name == n <;> simp
      simp only [List.find?_cons, hf]
      apply ih
      rw [List.map_cons] at hn
      rcases List.mem_cons.mp hn with he2 | h2
      · exact absurd (beq_iff_eq.mpr he2.symm) he
      · exact h2

/-- For a field set whose names are a permutation of a duplicate-free name
list, looking each name up selects each given field exactly once: the
selected list is a permutation of the field set. -/
theorem lookup_perm :
    ∀ (ns : List String), ns.Nodup → ∀ (fields : List DbField),
      (fields.map DbField.name).Perm ns →
      ∃ sel : List DbField,
        List.Forall₂ (fun n g => fields.find? (fun g' => g'.name == n) = some g) ns sel
        ∧ sel.Perm fields := by
  intro ns
  induction ns with
  | nil =>
    intro _ fields hperm
    have hnil : fields = [] := List.map_eq_nil_iff.mp hperm.eq_nil
    subst hnil
    exact ⟨[], .nil, List.Perm.refl _⟩
  | cons n ns ih =>
    intro hnodup fields hperm
    obtain ⟨hnotin, hnodup'⟩ := List.nodup_cons.mp hnodup
    have hn : n ∈ fields.map DbField.name := hperm.mem_iff.mpr (by simp)
    have hsome : (fields.find? (fun g' => g'.name == n)).isSome = true := by
      rw [List.find?_isSome]
      obtain ⟨g, hg, hgn⟩ := List.mem_map.mp hn
      exact ⟨g, hg, by simp [hgn]⟩
    obtain ⟨g₀, hg₀⟩ := Option.isSome_iff_exists.mp hsome
    have hg₀n : g₀.name = n :=
      beq_iff_eq.mp (List.find?_some (p := fun g' : DbField => g'.name == n) hg₀)
    have hg₀mem : g₀ ∈ fields := List.mem_of_find?_eq_some hg₀
    have hpe : fields.Perm (g₀ :: fields.erase g₀) := List.perm_cons_erase hg₀mem
    have hperm' : ((fields.erase g₀).map DbField.name).Perm ns := by
      have h1 := hpe.map DbField.name
      have h2 := h1.symm.trans hperm
      rw [List.map_cons, hg₀n] at h2
      exact h2.cons_inv
    obtain ⟨sel, hsel, hselperm⟩ := ih hnodup' (fields.erase g₀) hperm'
    have hsel' : List.Forall₂
        (fun n' g => fields.find? (fun g' => g'.name == n') = some g) ns sel := by
      refine forall₂_imp_mem hsel (fun n' hn' g h => ?_)
      have hp : (fun g' : DbField => g'.name == n') g₀ = false :=
        beq_eq_false_iff_ne.mpr (by
          rw [hg₀n]
          intro he
          exact hnotin (he ▸ hn'))
      rw [← find?_erase hg₀mem hp]
      exact h
    exact ⟨g₀ :: sel, .cons hg₀ hsel', (hselperm.cons g₀).trans hpe.symm⟩

/-- C5 (with the documented caller obligations: one well-typed field per
schema column, duplicate-free schema names): inserting then listing yields
exactly one new record, appended after the previous listing, whose fields
are the inserted set reordered to schema order, with a fresh id and
`completed_at = None`. -/
theorem C5_insert_roundtrip (st : FileState) (hInv : Inv st) (fields : List DbField)
    (hschnodup : (st.schema.fields.map (fun f => f.name)).Nodup)
    (hnames : (fields.map DbField.name).Perm (st.schema.fields.map (fun f => f.name)))
    (htypes : ∀ g ∈ fields, ∀ f ∈ st.schema.fields, g.name = f.name →
        g.value.typeOf = f.field_type) :
    ∃ st' la it,
      SqliteFile.insert st fields = .ok st'
      ∧ SqliteFile.list_items st = .ok la
      ∧ SqliteFile.list_items st' = .ok (la ++ [it])
      ∧ it.id = st.next_id
      ∧ it.completed_at = none
      ∧ it.fields.Perm fields
      ∧ it.fields.map DbField.name = st.schema.fields.map (fun f => f.name) := by
  obtain ⟨hsorted, hbound, hwt⟩ := hInv
  set newRow : Row := ⟨st.next_id,
    st.schema.fields.map
      (fun f => (f.name, (fields.find? (fun g => g.name == f.name)).map (fun g => g.value))),
    none⟩ with hnewRow
  have hfindnone : fields.find?
      (fun g => !((st.schema.fields.map (fun f => f.name)).contains g.name)) = none := by
    rw [List.find?_eq_none]
    intro g hg
    have hmem : g.name ∈ st.schema.fields.map (fun f => f.name) :=
      hnames.subset (List.mem_map_of_mem _ hg)
    have hc : (st.schema.fields.map (fun f => f.name)).contains g.name = true :=
      List.elem_eq_true_of_mem hmem
    rw [hc]
    simp
  have hins : SqliteFile.insert st fields =
      .ok ⟨st.schema, st.rows ++ [newRow], st.next_id + 1⟩ := by
    unfold SqliteFile.insert
    rw [hfindnone]
  have hper : ∀ f ∈ st.schema.fields,
      ∃ g, fields.find? (fun g' => g'.name == f.name) = some g
        ∧ readCell newRow f = .ok g := by
    intro f hf
    have hn : f.name ∈ fields.map DbField.name :=
      hnames.mem_iff.mpr (List.mem_map_of_mem _ hf)
    have hsome : (fields.find? (fun g' => g'.name == f.name)).isSome = true := by
      rw [List.find?_isSome]
      obtain ⟨g, hg, hgn⟩ := List.mem_map.mp hn
      exact ⟨g, hg, by simp [hgn]⟩
    obtain ⟨g, hg⟩ := Option.isSome_iff_exists.mp hsome
    have hgname : g.name = f.name :=
      beq_iff_eq.mp (List.find?_some (p := fun g' : DbField => g'.name == f.name) hg)
    have hgmem : g ∈ fields := List.mem_of_find?_eq_some hg
    have hcell : cellOf newRow f.name = some g.value := by
      show (match newRow.cells.find? (fun p => p.1 == f.name) with
        | some p => p.2
        | none => none) = some g.value
      rw [show newRow.cells = st.schema.fields.map
        (fun f => (f.name, (fields.find? (fun g => g.name == f.name)).map (fun g => g.value)))
        from rfl]
      rw [find?_assoc_map fields st.schema.fields f.name (List.mem_map_of_mem _ hf)]
      rw [hg]
      rfl
    have hetag : (⟨f.name, g.value⟩ : DbField) = g := by
      rw [← hgname]
    refine ⟨g, hg, ?_⟩
    unfold readCell
    rw [hcell]
    show (if g.value.typeOf = f.field_type then Except.ok (⟨f.name, g.value⟩ : DbField)
      else Except.error (DbError.typeMismatch f.name)) = Except.ok g
    rw [if_pos (htypes g hgmem f hf hgname), hetag]
  have hok : ∀ f ∈ st.schema.fields, (readCell newRow f).isOk = true := by
    intro f hf
    obtain ⟨g, _, hrc⟩ := hper f hf
    rw [hrc]
    rfl
  obtain ⟨newFields, hmapE⟩ := mapE_of_forall_isOk hok
  have hcorrF : List.Forall₂
      (fun f fl => fields.find? (fun g' => g'.name == f.name) = some fl)
      st.schema.fields newFields := by
    refine forall₂_imp_mem (mapE_ok_forall hmapE) (fun f hf fl h => ?_)
    obtain ⟨g, hg, hrc⟩ := hper f hf
    rw [h] at hrc
    cases hrc
    exact hg
  have hitem : to_db_item st.schema newRow = .ok ⟨st.next_id, newFields, none⟩ := by
    unfold to_db_item
    rw [hmapE]
  obtain ⟨la, hla⟩ := mapE_of_forall_isOk (l := st.rows) hwt
  have hsort_id : List.Sorted (OrderKey.rel .byId) st.rows :=
    hsorted.imp (fun h => le_of_lt h)
  have hitems : SqliteFile.list_items st = .ok la := by
    show mapE (to_db_item st.schema)
      (List.insertionSort (OrderKey.rel .byId) st.rows) = .ok la
    rw [List.Sorted.insertionSort_eq hsort_id]
    exact hla
  have hsorted' : (st.rows ++ [newRow]).Pairwise (fun a b => a.id < b.id) := by
    rw [List.pairwise_append]
    refine ⟨hsorted, List.pairwise_singleton _ _, ?_⟩
    intro a ha b hb
    have hbr : b = newRow := by simpa using hb
    rw [hbr]
    exact hbound a ha
  have hsort2 : List.Sorted (OrderKey.rel .byId) (st.rows ++ [newRow]) :=
    hsorted'.imp (fun h => le_of_lt h)
  have hsingle : mapE (to_db_item st.schema) [newRow] =
      .ok [⟨st.next_id, newFields, none⟩] := by
    simp only [mapE, hitem]
  have hitems' : SqliteFile.list_items ⟨st.schema, st.rows ++ [newRow], st.next_id + 1⟩ =
      .ok (la ++ [⟨st.next_id, newFields, none⟩]) := by
    show mapE (to_db_item st.schema)
      (List.insertionSort (OrderKey.rel .byId) (st.rows ++ [newRow])) = _
    rw [List.Sorted.insertionSort_eq hsort2]
    exact mapE_append_ok hla hsingle
  obtain ⟨sel, hsel, hselperm⟩ :=
    lookup_perm (st.schema.fields.map (fun f => f.name)) hschnodup fields hnames
  have hQ : List.Forall₂
      (fun n g => fields.find? (fun g' => g'.name == n) = some g)
      (st.schema.fields.map (fun f => f.name)) newFields :=
    List.forall₂_map_left_iff.mpr hcorrF
  have heqsel : newFields = sel :=
    forall₂_functional_eq (fun n g1 g2 h1 h2 => by rw [h1] at h2; cases h2; rfl) hQ hsel
  have hpermF : newFields.Perm fields := by
    rw [heqsel]
    exact hselperm
  have hnamesF : newFields.map DbField.name = st.schema.fields.map (fun f => f.name) :=
    forall₂_map_eq (fun f => f.name) DbField.name hcorrF
      (fun f fl h => beq_iff_eq.mp
        (List.find?_some (p := fun g' : DbField => g'.name == f.name) h))
  exact ⟨⟨st.schema, st.rows ++ [newRow], st.next_id + 1⟩, la,
    ⟨st.next_id, newFields, none⟩,
    hins, hitems, hitems', rfl, rfl, hpermF, hnamesF⟩

/-- Witness for C5: a field set in non-schema order inserted into the
concrete state `exSt`. -/
theorem C5_witness :
    ∃ st' la it,
      SqliteFile.insert exSt exFieldsRev = .ok st'
      ∧ SqliteFile.list_items exSt = .ok la
      ∧ SqliteFile.list_items st' = .ok (la ++ [it])
      ∧ it.id = exSt.next_id
      ∧ it.completed_at = none
      ∧ it.fields.Perm exFieldsRev
      ∧ it.fields.map DbField.name = exSt.schema.fields.map (fun f => f.name) :=
  C5_insert_roundtrip exSt (by decide) exFieldsRev (by decide) (by decide) (by decide)

end Rednext
